import Mathlib

/-!
Verification of the marked-block text-merge engine and reconciliation
dispatch of the crsm-operator controller
(internal/controller/customresourcestatemetrics_controller.go).

Strings are modelled by Lean `String` (a list of characters).  The Go
standard-library helpers used by the controller (`strings.Split`,
`strings.Join`, `strings.TrimRight`, `strings.TrimSuffix`,
`strings.HasSuffix`, `strings.TrimSpace` restricted to ASCII whitespace)
are defined below on the character list and lifted to `String`.
Functions that can panic in Go (out-of-range slicing) return `Option`,
with `none` marking the panic.
-/

/-! ## Go string helpers, character level -/

/-- Go `strings.Split s "\n"` on the character list: split at every newline. -/
def splitCh : List Char → List (List Char)
  | [] => [[]]
  | c :: cs =>
    if c = '\n' then [] :: splitCh cs
    else
      match splitCh cs with
      | [] => [[c]]
      | p :: ps => (c :: p) :: ps

/-- Go `strings.Join l "\n"` on character lists. -/
def joinCh : List (List Char) → List Char
  | [] => []
  | [p] => p
  | p :: q :: ps => p ++ '\n' :: joinCh (q :: ps)

theorem splitCh_ne_nil (l : List Char) : splitCh l ≠ [] := by
  induction l with
  | nil => simp [splitCh]
  | cons c cs ih =>
    by_cases h : c = '\n'
    · simp [splitCh, h]
    · simp only [splitCh, if_neg h]
      cases hs : splitCh cs with
      | nil => simp
      | cons p ps => simp

theorem joinCh_cons_cons (p : List Char) (q : List Char) (ps : List (List Char)) :
    joinCh (p :: q :: ps) = p ++ '\n' :: joinCh (q :: ps) := rfl

theorem joinCh_cons_head (c : Char) (p : List Char) (ps : List (List Char)) :
    joinCh ((c :: p) :: ps) = c :: joinCh (p :: ps) := by
  cases ps with
  | nil => rfl
  | cons q qs => simp [joinCh]

/-- Splitting distributes over an explicit separator. -/
theorem splitCh_append (a b : List Char) :
    splitCh (a ++ '\n' :: b) = splitCh a ++ splitCh b := by
  induction a with
  | nil => simp [splitCh]
  | cons c cs ih =>
    by_cases h : c = '\n'
    · simp [splitCh, h, ih]
    · cases hs : splitCh cs with
      | nil => exact absurd hs (splitCh_ne_nil cs)
      | cons p ps => simp [List.cons_append, splitCh, if_neg h, ih, hs]

/-- Joining the split parts reconstructs the original characters. -/
theorem joinCh_splitCh (l : List Char) : joinCh (splitCh l) = l := by
  induction l with
  | nil => rfl
  | cons c cs ih =>
    by_cases h : c = '\n'
    · subst h
      simp only [splitCh, if_pos rfl]
      cases hs : splitCh cs with
      | nil => exact absurd hs (splitCh_ne_nil cs)
      | cons p ps => rw [hs] at ih; simp [joinCh, ih]
    · simp only [splitCh, if_neg h]
      cases hs : splitCh cs with
      | nil => exact absurd hs (splitCh_ne_nil cs)
      | cons p ps => rw [hs] at ih; rw [joinCh_cons_head, ih]

/-- No split part contains a newline. -/
theorem splitCh_no_nl (l : List Char) : ∀ p ∈ splitCh l, '\n' ∉ p := by
  induction l with
  | nil => simp [splitCh]
  | cons c cs ih =>
    by_cases h : c = '\n'
    · simp only [splitCh, if_pos h]
      intro p hp
      rcases List.mem_cons.mp hp with hp | hp
      · simp [hp]
      · exact ih p hp
    · simp only [splitCh, if_neg h]
      cases hs : splitCh cs with
      | nil => exact absurd hs (splitCh_ne_nil cs)
      | cons q qs =>
        intro p hp
        rcases List.mem_cons.mp hp with hp | hp
        · subst hp
          intro hc
          rcases List.mem_cons.mp hc with hc | hc
          · exact h hc.symm
          · exact ih q (by rw [hs]; exact List.mem_cons_self q qs) hc
        · exact ih p (by rw [hs]; exact List.mem_cons_of_mem q hp)

/-- A newline-free list splits into itself. -/
theorem splitCh_single (l : List Char) (h : '\n' ∉ l) : splitCh l = [l] := by
  induction l with
  | nil => rfl
  | cons c cs ih =>
    have hc : c ≠ '\n' := fun hc => h (hc ▸ List.mem_cons_self c cs)
    have hcs : '\n' ∉ cs := fun hm => h (List.mem_cons_of_mem c hm)
    simp [splitCh, hc, ih hcs]

/-- Splitting a join of newline-free parts recovers the parts. -/
theorem splitCh_joinCh (l : List (List Char)) (hne : l ≠ [])
    (h : ∀ p ∈ l, '\n' ∉ p) : splitCh (joinCh l) = l := by
  induction l with
  | nil => exact absurd rfl hne
  | cons p ps ih =>
    cases ps with
    | nil => simpa [joinCh] using splitCh_single p (h p (List.mem_cons_self p []))
    | cons q qs =>
      rw [joinCh_cons_cons, splitCh_append, splitCh_single p (h p (List.mem_cons_self _ _)),
        ih (by simp) (fun r hr => h r (List.mem_cons_of_mem p hr))]
      rfl

theorem joinCh_append_of_ne_nil (l₁ l₂ : List (List Char)) (h₁ : l₁ ≠ []) (h₂ : l₂ ≠ []) :
    joinCh (l₁ ++ l₂) = joinCh l₁ ++ '\n' :: joinCh l₂ := by
  induction l₁ with
  | nil => exact absurd rfl h₁
  | cons p ps ih =>
    cases ps with
    | nil =>
      cases l₂ with
      | nil => exact absurd rfl h₂
      | cons q qs => simp [joinCh]
    | cons r rs =>
      have ihr := ih (by simp)
      simp only [List.cons_append, joinCh_cons_cons] at ihr ⊢
      rw [ihr]
      simp [List.append_assoc]

/-- Go `strings.TrimRight s "\n"` on the character list. -/
def dropTrailNl (l : List Char) : List Char :=
  (l.reverse.dropWhile (· = '\n')).reverse

theorem dropTrailNl_append_nl (l : List Char) :
    dropTrailNl (l ++ ['\n']) = dropTrailNl l := by
  simp [dropTrailNl, List.dropWhile]

theorem dropTrailNl_nil : dropTrailNl [] = [] := rfl

/-- If the last character is not a newline, trimming is the identity. -/
theorem dropTrailNl_of_getLast (l : List Char) (h : l.getLast? ≠ some '\n') :
    dropTrailNl l = l := by
  cases hl : l.reverse with
  | nil =>
    have : l = [] := by simpa using congrArg List.reverse hl
    simp [this, dropTrailNl]
  | cons c cs =>
    have hc : c ≠ '\n' := by
      intro hc
      apply h
      rw [← List.head?_reverse, hl, hc]
      rfl
    have : l.reverse.dropWhile (· = '\n') = l.reverse := by
      rw [hl, List.dropWhile_cons_of_neg (by simp [hc])]
    simp [dropTrailNl, this]

theorem dropWhile_head_false {α : Type} (p : α → Bool) :
    ∀ (l : List α) (c : α) (cs : List α), l.dropWhile p = c :: cs → p c = false := by
  intro l
  induction l with
  | nil => intro c cs h; simp [List.dropWhile] at h
  | cons a as ih =>
    intro c cs h
    by_cases hp : p a
    · rw [List.dropWhile_cons_of_pos hp] at h
      exact ih c cs h
    · rw [List.dropWhile_cons_of_neg hp] at h
      injection h with h1 h2
      subst h1
      simpa using hp

theorem getLast?_dropTrailNl (l : List Char) :
    (dropTrailNl l).getLast? ≠ some '\n' := by
  rw [← List.head?_reverse]
  unfold dropTrailNl
  rw [List.reverse_reverse]
  cases hd : l.reverse.dropWhile (· = '\n') with
  | nil => simp
  | cons c cs =>
    have hc := dropWhile_head_false (· = '\n') l.reverse c cs hd
    simp only [List.head?_cons, ne_eq, Option.some.injEq]
    intro h
    rw [h] at hc
    simp at hc

/-! ## Go string helpers, `String` level -/

/-- Go `strings.Split s "\n"`. -/
def goSplit (s : String) : List String :=
  (splitCh s.data).map String.mk

/-- Go `strings.Join l "\n"`. -/
def goJoin (l : List String) : String :=
  String.mk (joinCh (l.map String.data))

/-- Go `strings.HasSuffix s "\n"`. -/
def goEndsWithNl (s : String) : Bool :=
  s.data.getLast? = some '\n'

/-- Go `strings.TrimRight s "\n"`. -/
def goTrimRightNl (s : String) : String :=
  String.mk (dropTrailNl s.data)

/-- Go `strings.TrimSuffix s "\n"`. -/
def goTrimSuffixNl (s : String) : String :=
  if goEndsWithNl s then String.mk s.data.dropLast else s

/-- ASCII whitespace recognised by Go `unicode.IsSpace` (the controller
only ever compares the trimmed result against the literal `"{}"`). -/
def isGoSpace (c : Char) : Bool :=
  c = ' ' ∨ c = '\t' ∨ c = '\n' ∨ c = '\x0b' ∨ c = '\x0c' ∨ c = '\r'

/-- Go `strings.TrimSpace s`, restricted to ASCII whitespace. -/
def goTrimSpace (s : String) : String :=
  String.mk (((s.data.dropWhile isGoSpace).reverse.dropWhile isGoSpace).reverse)

theorem string_mk_data (s : String) : String.mk s.data = s := rfl

theorem string_data_append (a b : String) : (a ++ b).data = a.data ++ b.data := rfl

theorem string_mk_inj {l₁ l₂ : List Char} (h : String.mk l₁ = String.mk l₂) : l₁ = l₂ := by
  injection h

theorem goSplit_ne_nil (s : String) : goSplit s ≠ [] := by
  unfold goSplit
  intro h
  exact splitCh_ne_nil s.data (List.map_eq_nil.mp h)

/-- The newline string used throughout. -/
theorem nl_data : ("\n" : String).data = ['\n'] := rfl

theorem goSplit_append (a b : String) :
    goSplit (a ++ "\n" ++ b) = goSplit a ++ goSplit b := by
  unfold goSplit
  have : (a ++ "\n" ++ b).data = a.data ++ '\n' :: b.data := by
    rw [string_data_append, string_data_append, nl_data, List.append_assoc]
    rfl
  rw [this, splitCh_append, List.map_append]

theorem goJoin_goSplit (s : String) : goJoin (goSplit s) = s := by
  unfold goJoin goSplit
  rw [List.map_map]
  have : (String.data ∘ String.mk) = id := rfl
  rw [this, List.map_id, joinCh_splitCh]

theorem goSplit_no_nl (s : String) : ∀ p ∈ goSplit s, '\n' ∉ p.data := by
  unfold goSplit
  intro p hp
  rcases List.mem_map.mp hp with ⟨q, hq, rfl⟩
  exact splitCh_no_nl s.data q hq

theorem goSplit_single (s : String) (h : '\n' ∉ s.data) : goSplit s = [s] := by
  unfold goSplit
  rw [splitCh_single s.data h]
  rfl

theorem goSplit_goJoin (l : List String) (hne : l ≠ [])
    (h : ∀ p ∈ l, '\n' ∉ p.data) : goSplit (goJoin l) = l := by
  unfold goSplit goJoin
  have hmap : l.map String.data ≠ [] := fun hc => hne (List.map_eq_nil.mp hc)
  have hnl : ∀ p ∈ l.map String.data, '\n' ∉ p := by
    intro p hp
    rcases List.mem_map.mp hp with ⟨q, hq, rfl⟩
    exact h q hq
  rw [splitCh_joinCh _ hmap hnl, List.map_map]
  have : (String.mk ∘ String.data) = id := by
    funext x
    rfl
  rw [this, List.map_id]

theorem goJoin_append (l₁ l₂ : List String) (h₁ : l₁ ≠ []) (h₂ : l₂ ≠ []) :
    goJoin (l₁ ++ l₂) = goJoin l₁ ++ "\n" ++ goJoin l₂ := by
  unfold goJoin
  rw [List.map_append, joinCh_append_of_ne_nil _ _ (by simpa) (by simpa)]
  apply String.ext
  rw [string_data_append, string_data_append, nl_data]
  simp

theorem goJoin_single (s : String) : goJoin [s] = s := rfl

theorem goEndsWithNl_append_nl (s : String) : goEndsWithNl (s ++ "\n") = true := by
  unfold goEndsWithNl
  rw [string_data_append, nl_data]
  simp

theorem goTrimSuffixNl_append_nl (s : String) : goTrimSuffixNl (s ++ "\n") = s := by
  unfold goTrimSuffixNl
  rw [goEndsWithNl_append_nl]
  simp only [if_pos]
  rw [string_data_append, nl_data]
  rw [List.dropLast_concat]

/-- A string ending in a newline decomposes as its front plus `"\n"`. -/
theorem eq_dropLast_append_nl (s : String) (h : goEndsWithNl s = true) :
    s = String.mk s.data.dropLast ++ "\n" := by
  unfold goEndsWithNl at h
  have hne : s.data ≠ [] := by
    intro hc
    rw [hc] at h
    simp at h
  have hlast : s.data.getLast? = some '\n' := by simpa using h
  have := List.dropLast_append_getLast hne
  have hget : s.data.getLast hne = '\n' := by
    have := List.getLast?_eq_getLast s.data hne
    rw [this] at hlast
    exact Option.some.inj hlast
  apply String.ext
  rw [string_data_append, nl_data]
  rw [hget] at this
  exact this.symm

theorem goTrimRightNl_append_nl (s : String) :
    goTrimRightNl (s ++ "\n") = goTrimRightNl s := by
  unfold goTrimRightNl
  rw [string_data_append, nl_data]
  rw [dropTrailNl_append_nl]

theorem goTrimRightNl_of_not_nl (s : String) (h : goEndsWithNl s = false) :
    goTrimRightNl s = s := by
  unfold goTrimRightNl
  unfold goEndsWithNl at h
  rw [dropTrailNl_of_getLast s.data (by simpa using h)]

theorem goEndsWithNl_goTrimRightNl (s : String) :
    goEndsWithNl (goTrimRightNl s) = false := by
  unfold goEndsWithNl goTrimRightNl
  simpa using getLast?_dropTrailNl s.data

theorem goTrimRightNl_empty : goTrimRightNl "" = "" := rfl

/-! ## Block markers and the block locator (findBlock, controller lines 626-647) -/

/-- Format `beginMarkerFormat` instantiated with the instance key (line 47). -/
def beginMarker (name : String) : String :=
  "# BEGIN CustomResourceStateMetrics " ++ name

/-- Format `endMarkerFormat` instantiated with the instance key (line 50). -/
def endMarker (name : String) : String :=
  "# END CustomResourceStateMetrics " ++ name

theorem beginMarker_ne_endMarker (name : String) :
    beginMarker name ≠ endMarker name := by
  intro h
  have := congrArg (fun s => s.data.length) h
  simp only [beginMarker, endMarker, string_data_append, List.length_append,
    List.length_cons, List.length_nil] at this
  omega

theorem beginMarker_ne_empty (name : String) : beginMarker name ≠ "" := by
  intro h
  have := congrArg (fun s => s.data.length) h
  simp only [beginMarker, string_data_append, List.length_append,
    List.length_cons, List.length_nil] at this
  omega

theorem endMarker_ne_empty (name : String) : endMarker name ≠ "" := by
  intro h
  have := congrArg (fun s => s.data.length) h
  simp only [endMarker, string_data_append, List.length_append,
    List.length_cons, List.length_nil] at this
  omega

/-- The loop body of `findBlock`: scan the remaining lines, carrying the
current index and the `(found, beginIndex, endIndex)` state. -/
def findBlockAux (bm em : String) : List String → Int → Bool × Int × Int → Bool × Int × Int
  | [], _, st => st
  | l :: ls, i, (found, b, e) =>
    let b' := if l = bm then i else b
    if l = em ∧ b' > -1 then findBlockAux bm em ls (i + 1) (true, b', i)
    else findBlockAux bm em ls (i + 1) (found, b', e)

/-- Function `findBlock` (lines 627-647): returns `(found, beginIndex, endIndex)`. -/
def findBlock (name : String) (lines : List String) : Bool × Int × Int :=
  findBlockAux (beginMarker name) (endMarker name) lines 0 (false, -1, -1)

/-- Membership test used by the scan characterisation. -/
def containsS (x : String) : List String → Bool
  | [] => false
  | a :: as => a = x || containsS x as

/-- Index of the last occurrence of `x`, `-1` if absent. -/
def lastIdx (x : String) : List String → Int
  | [] => -1
  | a :: as =>
    if lastIdx x as ≥ 0 then lastIdx x as + 1
    else if a = x then 0 else -1

theorem containsS_iff (x : String) (l : List String) :
    containsS x l = true ↔ x ∈ l := by
  induction l with
  | nil => simp [containsS]
  | cons a as ih =>
    simp only [containsS, Bool.or_eq_true, decide_eq_true_eq, ih, List.mem_cons]
    constructor
    · rintro (h | h)
      · exact Or.inl h.symm
      · exact Or.inr h
    · rintro (h | h)
      · exact Or.inl h.symm
      · exact Or.inr h

theorem containsS_snoc (x y : String) (l : List String) :
    containsS x (l ++ [y]) = (containsS x l || y = x) := by
  induction l with
  | nil => simp [containsS]
  | cons a as ih => simp [containsS, ih, Bool.or_assoc]

theorem lastIdx_nonneg_iff (x : String) (l : List String) :
    lastIdx x l ≥ 0 ↔ x ∈ l := by
  induction l with
  | nil => simp [lastIdx]
  | cons a as ih =>
    by_cases h : lastIdx x as ≥ 0
    · simp only [lastIdx, if_pos h, List.mem_cons]
      constructor
      · intro _; exact Or.inr (ih.mp h)
      · intro _; omega
    · simp only [lastIdx, if_neg h, List.mem_cons]
      by_cases ha : a = x
      · simp [ha]
      · have hnotmem : x ∉ as := fun hm => h (ih.mpr hm)
        simp only [if_neg ha]
        constructor
        · intro hc; omega
        · rintro (rfl | hm)
          · exact absurd rfl ha
          · exact absurd hm hnotmem

theorem lastIdx_lt_length (x : String) (l : List String) :
    lastIdx x l < l.length := by
  induction l with
  | nil => simp [lastIdx]
  | cons a as ih =>
    by_cases h : lastIdx x as ≥ 0
    · simp only [lastIdx, if_pos h, List.length_cons]
      push_cast
      omega
    · simp only [lastIdx, if_neg h, List.length_cons]
      by_cases ha : a = x <;> simp [ha] <;> push_cast <;> omega

theorem lastIdx_cons (x a : String) (as : List String) :
    lastIdx x (a :: as) =
      if lastIdx x as ≥ 0 then lastIdx x as + 1 else if a = x then 0 else -1 := rfl

theorem lastIdx_snoc (x y : String) (l : List String) :
    lastIdx x (l ++ [y]) = if y = x then (l.length : Int) else lastIdx x l := by
  induction l with
  | nil => simp [lastIdx]
  | cons a as ih =>
    rw [List.cons_append, lastIdx_cons]
    by_cases hy : y = x
    · have hnn : lastIdx x (as ++ [y]) ≥ 0 := by
        rw [ih, if_pos hy]
        positivity
      rw [if_pos hnn, ih, if_pos hy, if_pos hy, List.length_cons]
      push_cast
      ring
    · rw [ih, if_neg hy, if_neg hy, lastIdx_cons]

/-- A begin marker followed (not necessarily immediately) by an end marker. -/
def hasPair (bm em : String) : List String → Bool
  | [] => false
  | a :: as => (a = bm && containsS em as) || hasPair bm em as

theorem hasPair_contains_bm (bm em : String) (l : List String)
    (h : hasPair bm em l = true) : containsS bm l = true := by
  induction l with
  | nil => simp [hasPair] at h
  | cons a as ih =>
    simp only [hasPair, Bool.or_eq_true, Bool.and_eq_true, decide_eq_true_eq] at h
    simp only [containsS, Bool.or_eq_true, decide_eq_true_eq]
    rcases h with ⟨ha, _⟩ | h
    · exact Or.inl ha
    · exact Or.inr (ih h)

theorem hasPair_snoc (bm em x : String) (l : List String) :
    hasPair bm em (l ++ [x]) = (hasPair bm em l || (x = em && containsS bm l)) := by
  induction l with
  | nil => simp [hasPair, containsS]
  | cons a as ih =>
    simp only [List.cons_append, hasPair, containsS_snoc, containsS]
    cases h1 : (decide (a = bm)) <;> cases h2 : containsS em as <;>
      cases h3 : hasPair bm em as <;> cases h4 : (decide (x = em)) <;>
      cases h5 : containsS bm as <;> simp [ih, containsS_snoc, h1, h2, h3, h4, h5]

theorem findBlockAux_nil (bm em : String) (i : Int) (st : Bool × Int × Int) :
    findBlockAux bm em [] i st = st := rfl

theorem findBlockAux_cons (bm em x : String) (ls : List String) (i : Int)
    (f : Bool) (b e : Int) :
    findBlockAux bm em (x :: ls) i (f, b, e) =
      if x = em ∧ (if x = bm then i else b) > -1
        then findBlockAux bm em ls (i + 1) (true, if x = bm then i else b, i)
        else findBlockAux bm em ls (i + 1) (f, if x = bm then i else b, e) := rfl

theorem findBlockAux_append (bm em : String) (xs ys : List String) :
    ∀ (i : Int) (st : Bool × Int × Int),
    findBlockAux bm em (xs ++ ys) i st =
      findBlockAux bm em ys (i + xs.length) (findBlockAux bm em xs i st) := by
  induction xs with
  | nil =>
    intro i st
    simp [findBlockAux]
  | cons x xs ih =>
    intro i st
    obtain ⟨f, b, e⟩ := st
    rw [List.cons_append, findBlockAux_cons, findBlockAux_cons]
    have harith : (i + 1) + (xs.length : Int) = i + ((x :: xs).length : Int) := by
      rw [List.length_cons]
      push_cast
      ring
    by_cases hcond : x = em ∧ (if x = bm then i else b) > -1
    · rw [if_pos hcond, if_pos hcond, ih, harith]
    · rw [if_neg hcond, if_neg hcond, ih, harith]

/-- Characterisation of the scan: `found` is the existence of a begin
marker strictly before an end marker; `beginIndex` is the last begin
marker position (`-1` if absent); when found, `endIndex` is the last end
marker position, else `-1`. -/
theorem findBlock_char (name : String) (lines : List String) :
    findBlock name lines =
      (hasPair (beginMarker name) (endMarker name) lines,
       lastIdx (beginMarker name) lines,
       if hasPair (beginMarker name) (endMarker name) lines = true
         then lastIdx (endMarker name) lines else -1) := by
  induction lines using List.reverseRecOn with
  | nil => rfl
  | append_singleton ls x ih =>
    unfold findBlock at ih ⊢
    rw [findBlockAux_append, ih, zero_add, findBlockAux_cons]
    by_cases hbm : x = beginMarker name
    · subst hbm
      simp [findBlockAux_nil, hasPair_snoc, lastIdx_snoc, beginMarker_ne_endMarker name]
    · by_cases hem : x = endMarker name
      · subst hem
        have hne : ¬(endMarker name = beginMarker name) :=
          fun hc => beginMarker_ne_endMarker name hc.symm
        by_cases hb : lastIdx (beginMarker name) ls ≥ 0
        · have hbc : containsS (beginMarker name) ls = true :=
            (containsS_iff _ _).mpr ((lastIdx_nonneg_iff _ _).mp hb)
          have hb2 : lastIdx (beginMarker name) ls > -1 := by omega
          have hp2 : hasPair (beginMarker name) (endMarker name) (ls ++ [endMarker name]) = true := by
            rw [hasPair_snoc]
            simp [hbc]
          simp [findBlockAux_nil, hp2, hasPair_snoc, lastIdx_snoc, hne, hb2]
        · have hb2 : ¬(lastIdx (beginMarker name) ls > -1) := by omega
          have hcb : containsS (beginMarker name) ls = false := by
            cases hc : containsS (beginMarker name) ls
            · rfl
            · exact absurd ((lastIdx_nonneg_iff _ _).mpr ((containsS_iff _ _).mp hc)) hb
          have hnp : hasPair (beginMarker name) (endMarker name) ls = false := by
            cases hp : hasPair (beginMarker name) (endMarker name) ls
            · rfl
            · rw [hasPair_contains_bm _ _ _ hp] at hcb
              exact absurd hcb (by simp)
          simp [findBlockAux_nil, hasPair_snoc, lastIdx_snoc, hne, hb2, hcb, hnp]
      · simp [findBlockAux_nil, hasPair_snoc, lastIdx_snoc, hbm, hem]

theorem lastIdx_getElem (x : String) (l : List String) (h : x ∈ l) :
    l[(lastIdx x l).toNat]? = some x := by
  induction l with
  | nil => simp at h
  | cons a as ih =>
    rw [lastIdx_cons]
    by_cases hge : lastIdx x as ≥ 0
    · have hxas : x ∈ as := (lastIdx_nonneg_iff _ _).mp hge
      rw [if_pos hge]
      have : (lastIdx x as + 1).toNat = (lastIdx x as).toNat + 1 := by omega
      rw [this, List.getElem?_cons_succ]
      exact ih hxas
    · rw [if_neg hge]
      by_cases ha : a = x
      · simp [ha]
      · rcases List.mem_cons.mp h with hx | hx
        · exact absurd hx.symm ha
        · exact absurd ((lastIdx_nonneg_iff _ _).mpr hx) hge

theorem le_lastIdx_of_getElem (x : String) (l : List String) (m : Nat)
    (h : l[m]? = some x) : (m : Int) ≤ lastIdx x l := by
  induction l generalizing m with
  | nil => simp at h
  | cons a as ih =>
    rw [lastIdx_cons]
    cases m with
    | zero =>
      have ha : a = x := by simpa using h
      by_cases hge : lastIdx x as ≥ 0
      · rw [if_pos hge]; omega
      · rw [if_neg hge, if_pos ha]
        simp
    | succ m =>
      rw [List.getElem?_cons_succ] at h
      have hm := ih m h
      have hge : lastIdx x as ≥ 0 := by omega
      rw [if_pos hge]
      push_cast
      omega

theorem not_mem_drop_of_lastIdx_lt (x : String) (l : List String) (n : Nat)
    (h : lastIdx x l < (n : Int)) : x ∉ l.drop n := by
  intro hm
  rcases List.mem_iff_getElem?.mp hm with ⟨m, hget⟩
  rw [List.getElem?_drop] at hget
  have := le_lastIdx_of_getElem x l (n + m) hget
  push_cast at this
  omega

theorem hasPair_iff (bm em : String) (l : List String) :
    hasPair bm em l = true ↔
      ∃ i j : Nat, i < j ∧ l[i]? = some bm ∧ l[j]? = some em := by
  induction l with
  | nil => simp [hasPair]
  | cons a as ih =>
    simp only [hasPair, Bool.or_eq_true, Bool.and_eq_true, decide_eq_true_eq]
    constructor
    · rintro (⟨rfl, hc⟩ | hp)
      · rcases List.mem_iff_getElem?.mp ((containsS_iff _ _).mp hc) with ⟨j, hj⟩
        exact ⟨0, j + 1, by omega, by simp, by simpa using hj⟩
      · rcases ih.mp hp with ⟨i, j, hij, hi, hj⟩
        exact ⟨i + 1, j + 1, by omega, by simpa using hi, by simpa using hj⟩
    · rintro ⟨i, j, hij, hi, hj⟩
      cases i with
      | zero =>
        have ha : a = bm := by simpa using hi
        cases j with
        | zero => omega
        | succ j =>
          rw [List.getElem?_cons_succ] at hj
          exact Or.inl ⟨ha, (containsS_iff _ _).mpr (List.mem_iff_getElem?.mpr ⟨j, hj⟩)⟩
      | succ i =>
        cases j with
        | zero => omega
        | succ j =>
          rw [List.getElem?_cons_succ] at hi
          rw [List.getElem?_cons_succ] at hj
          exact Or.inr (ih.mpr ⟨i, j, by omega, hi, hj⟩)

/-- Scanning a list without either marker leaves the state unchanged. -/
theorem findBlockAux_skip (bm em : String) (ls : List String)
    (hbm : bm ∉ ls) (hem : em ∉ ls) :
    ∀ (i : Int) (st : Bool × Int × Int), findBlockAux bm em ls i st = st := by
  induction ls with
  | nil => intro i st; rfl
  | cons a as ih =>
    intro i st
    obtain ⟨f, b, e⟩ := st
    have ha_bm : ¬(a = bm) := fun hc => hbm (hc ▸ List.mem_cons_self a as)
    have ha_em : ¬(a = em) := fun hc => hem (hc ▸ List.mem_cons_self a as)
    rw [findBlockAux_cons, if_neg (fun hc => ha_em hc.1), if_neg ha_bm]
    exact ih (fun hc => hbm (List.mem_cons_of_mem a hc))
      (fun hc => hem (List.mem_cons_of_mem a hc)) (i + 1) (f, b, e)

/-- Scanning a list without the begin marker preserves the begin index. -/
theorem findBlockAux_keepB (bm em : String) (ls : List String) (hbm : bm ∉ ls) :
    ∀ (i : Int) (f : Bool) (b e : Int),
      ∃ f2 e2, findBlockAux bm em ls i (f, b, e) = (f2, b, e2) := by
  induction ls with
  | nil => intro i f b e; exact ⟨f, e, rfl⟩
  | cons a as ih =>
    intro i f b e
    have ha_bm : ¬(a = bm) := fun hc => hbm (hc ▸ List.mem_cons_self a as)
    have has : bm ∉ as := fun hc => hbm (List.mem_cons_of_mem a hc)
    rw [findBlockAux_cons, if_neg ha_bm]
    by_cases hcond : a = em ∧ b > -1
    · rw [if_pos hcond]
      exact ih has (i + 1) true b i
    · rw [if_neg hcond]
      exact ih has (i + 1) f b e

/-- Recognition of a freshly written block: a scan that reaches
`[bm] ++ inner ++ [em] ++ trail` at a nonnegative index, where `inner`
has no begin marker and `trail` has neither marker, ends found with the
markers' positions. -/
theorem findBlockAux_block (bm em : String) (hne : bm ≠ em)
    (inner trail : List String) (hin : bm ∉ inner)
    (htb : bm ∉ trail) (hte : em ∉ trail) (i : Int) (hi : 0 ≤ i)
    (st : Bool × Int × Int) :
    findBlockAux bm em (bm :: (inner ++ em :: trail)) i st =
      (true, i, i + 1 + inner.length) := by
  obtain ⟨f, b, e⟩ := st
  rw [findBlockAux_cons]
  have h1 : (if bm = bm then i else b) = i := if_pos rfl
  rw [h1]
  have h2 : ¬(bm = em ∧ i > -1) := fun hc => hne hc.1
  rw [if_neg h2]
  rw [findBlockAux_append]
  rcases findBlockAux_keepB bm em inner hin (i + 1) f i e with ⟨f2, e2, heq⟩
  rw [heq, findBlockAux_cons]
  have h3 : (if em = bm then (i + 1) + (inner.length : Int) else i) = i :=
    if_neg (fun hc => hne hc.symm)
  rw [h3]
  rw [if_pos ⟨rfl, by omega⟩]
  rw [findBlockAux_skip bm em trail htb hte]

theorem findBlock_decomp (name : String) (lsP inner trail : List String)
    (hin : beginMarker name ∉ inner) (htb : beginMarker name ∉ trail)
    (hte : endMarker name ∉ trail) :
    findBlock name (lsP ++ beginMarker name :: (inner ++ endMarker name :: trail)) =
      (true, (lsP.length : Int), (lsP.length : Int) + 1 + inner.length) := by
  unfold findBlock
  rw [findBlockAux_append]
  have := findBlockAux_block (beginMarker name) (endMarker name)
    (beginMarker_ne_endMarker name) inner trail hin htb hte
    (0 + (lsP.length : Int)) (by positivity)
    (findBlockAux (beginMarker name) (endMarker name) lsP 0 (false, -1, -1))
  rw [this, zero_add]

/-! ## joinLines (controller lines 649-675) -/

/-- The Go slice `lines[lo:hi]` (callers establish `0 ≤ lo ≤ hi ≤ len`). -/
def goSlice (lines : List String) (lo hi : Int) : List String :=
  (lines.drop lo.toNat).take (hi - lo).toNat

/-- Function `joinLines` (lines 651-675).  `none` models the Go slice panic for
ranges that are invalid even after the clamping steps. -/
def joinLines (lines : List String) (start0 end0 : Int) : Option String :=
  let lastIndex : Int := (lines.length : Int) - 1
  let start := if start0 < 0 then 0 else start0
  let endv := if end0 = lastIndex then end0
    else if end0 = -1 ∨ end0 > lastIndex then lastIndex else end0
  let strip := if end0 = lastIndex then true
    else if end0 = -1 ∨ end0 > lastIndex then true else false
  if start > endv + 1 then none
  else
    let result := goJoin (goSlice lines start (endv + 1))
    some (if strip then goTrimRightNl result
      else if goEndsWithNl result then result else result ++ "\n")

/-- Evaluation of the `joinLines lines 0 (b-1)` calls made by the merge
engine: an interior prefix, newline-ensured. -/
theorem joinLines_front (lines : List String) (b : Nat) (hb : 0 < b)
    (hlt : (b : Int) < (lines.length : Int) - 1 + 1) (hne : (b : Int) ≠ lines.length) :
    joinLines lines 0 ((b : Int) - 1) =
      some (if goEndsWithNl (goJoin (lines.take b)) then goJoin (lines.take b)
        else goJoin (lines.take b) ++ "\n") := by
  unfold joinLines
  have h1 : ¬((0 : Int) < 0) := by omega
  have h2 : ¬((b : Int) - 1 = (lines.length : Int) - 1) := by
    intro hc
    exact hne (by omega)
  have h3 : ¬((b : Int) - 1 = -1 ∨ (b : Int) - 1 > (lines.length : Int) - 1) := by
    push_neg
    omega
  simp only [if_neg h1, if_neg h2, if_neg h3, if_false]
  rw [if_neg (show ¬((0 : Int) > (b : Int) - 1 + 1) by omega)]
  have hslice : goSlice lines 0 ((b : Int) - 1 + 1) = lines.take b := by
    unfold goSlice
    simp only [Int.toNat_zero, List.drop_zero]
    congr 1
    omega
  rw [hslice]
  simp

/-- Evaluation of the `joinLines lines (e+1) (-1)` calls made by the merge
engine: the remaining suffix with trailing newlines stripped. -/
theorem joinLines_back (lines : List String) (n : Nat)
    (hlen : 1 ≤ lines.length) (hn : (n : Int) ≤ (lines.length : Int)) :
    joinLines lines (n : Int) (-1) =
      some (goTrimRightNl (goJoin (lines.drop n))) := by
  unfold joinLines
  have h1 : ¬((n : Int) < 0) := by omega
  have h2 : ¬((-1 : Int) = (lines.length : Int) - 1) := by omega
  simp only [if_neg h1, if_neg h2, eq_self_iff_true, true_or, if_true]
  rw [if_neg (show ¬((n : Int) > (lines.length : Int) - 1 + 1) by omega)]
  have hslice : goSlice lines (n : Int) ((lines.length : Int) - 1 + 1) = lines.drop n := by
    unfold goSlice
    have : ((lines.length : Int) - 1 + 1 - (n : Int)).toNat = lines.length - n := by omega
    rw [this, Int.toNat_natCast]
    exact List.take_of_length_le (by simp)
  rw [hslice]

/-! ## The block merge engine (pure document transformations of
addCustomResourceStateMetric, lines 495-557, and
deleteCustomResourceStateMetric, lines 332-378) -/

/-- Header `cmDataHeader` (line 422). -/
def cmDataHeader : String := "kind: CustomResourceStateMetrics\nspec:\n  resources:\n"

/-- Value `cmData` (lines 423-428): the marker-wrapped encoded fragment. -/
def cmData (instanceKey dataYaml : String) : String :=
  beginMarker instanceKey ++ "\n" ++ dataYaml ++ endMarker instanceKey ++ "\n"

/-- The document transformation of the add path on an existing document
(lines 495-557): locate the block, normalise the `{}` placeholder to the
header, then no-op / splice-replace / append.  `none` models the Go
panic of `lines[beginIndex : endIndex+1]` for inverted marker layouts. -/
def upsertBlock (doc instanceKey dataYaml : String) : Option String :=
  let lines := goSplit doc
  let fb := findBlock instanceKey lines
  let doc1 := if goTrimSpace doc = "{}" then cmDataHeader else doc
  if fb.1 then
    if fb.2.1 < 0 ∨ fb.2.1 > fb.2.2 + 1 ∨ fb.2.2 + 1 > (lines.length : Int) then none
    else if goTrimSuffixNl (cmData instanceKey dataYaml) =
        goJoin (goSlice lines fb.2.1 (fb.2.2 + 1)) then
      some doc
    else
      (if fb.2.1 > 0 then joinLines lines 0 (fb.2.1 - 1) else some "").bind fun front =>
      (if fb.2.2 < (lines.length : Int) - 1 then joinLines lines (fb.2.2 + 1) (-1)
        else some "").bind fun back =>
      some (front ++ cmData instanceKey dataYaml ++ back)
  else
    some (doc1 ++ cmData instanceKey dataYaml)

/-- The document transformation of the delete path (lines 332-378):
locate the block; signal `false` (not found) leaving the document
unchanged, or splice the block out. -/
def removeBlock (doc instanceKey : String) : Option (Bool × String) :=
  let lines := goSplit doc
  let fb := findBlock instanceKey lines
  if fb.1 then
    (if fb.2.1 > 0 then joinLines lines 0 (fb.2.1 - 1) else some "").bind fun front =>
    (if fb.2.2 < (lines.length : Int) - 1 then joinLines lines (fb.2.2 + 1) (-1)
      else some "").bind fun back =>
    some (true, front ++ back)
  else
    some (false, doc)

/-! ## Resource encoder post-processing (decodeData, lines 585-624) -/

/-- The post-processing step of `decodeData` (lines 612-623): split the
serialized YAML into at most two pieces at the first newline
(`strings.SplitN(s, "\n", 2)`); a single piece is returned unmodified,
otherwise the piece after the first newline (the wrapping-key header
line is removed).  The JSON and YAML marshalling that produces the input
lives in the outside `encoding/json` and `gopkg.in/yaml.v3` libraries. -/
def decodeDataPost (yamlDataString : String) : String :=
  match yamlDataString.data.dropWhile (· ≠ '\n') with
  | [] => yamlDataString
  | _ :: rest => String.mk rest

/-- Modelled from the spec: the serialization of the wrapped empty
resource list.  The serializer itself (gopkg.in/yaml.v3) is not part of
this repository; per the spec, empty/trivial input serializes to the
single line introducing the wrapping key. -/
def emptyResourcesYaml : String := "resources: []"

/-! ## Controller flow models -/

/-- Why a ConfigMap `Get` failed.  The delete path (lines 300-330) never
inspects the reason: any error takes its "ConfigMap does not exist"
branch, unlike the add path (line 445) which checks `IgnoreNotFound`. -/
inductive CMGetError
  | notFound
  | other
deriving DecidableEq

/-- Outcomes of the collaborator calls supplied to one run of the delete path. -/
structure DeleteEnv where
  fetch : Except CMGetError String
  docUpdateOk : Bool
  statusOk : Bool

/-- Observable outcome of the delete path: returned error, attempted
document write (if any), and whether the block was found. -/
structure DeleteOut where
  err : Bool
  docWrite : Option String
  blockFound : Bool
deriving DecidableEq

/-- Function `deleteCustomResourceStateMetric` (lines 283-403), with the event
sink elided and the instance-status persistence outcome supplied by the
environment.  Any fetch error: event, Ready=false/Removing condition,
return nil (lines 306-330).  No block: event and condition, return nil
(lines 336-360).  Found: splice the block out and update the ConfigMap
(lines 362-402). -/
def deleteCRSM (instanceKey : String) (env : DeleteEnv) : DeleteOut :=
  match env.fetch with
  | Except.error _ =>
    { err := !env.statusOk, docWrite := none, blockFound := false }
  | Except.ok data =>
    match removeBlock data instanceKey with
    | none => { err := true, docWrite := none, blockFound := true }
    | some (false, _) =>
      { err := !env.statusOk, docWrite := none, blockFound := false }
    | some (true, newDoc) =>
      { err := !env.docUpdateOk || !env.statusOk, docWrite := some newDoc,
        blockFound := true }

/-- Constant `FinalizerName` (line 44). -/
def finalizerName : String := "ksm.jtyr.io/finalizer"

inductive RBranch
  | deleting
  | creating
  | updating
deriving DecidableEq

/-- The instance fields consulted by the reconcile dispatch
(lines 114 and 181). -/
structure InstanceState where
  deletionRequested : Bool
  generation : Int
  finalizers : List String
deriving DecidableEq

/-- Library `controllerutil.ContainsFinalizer`. -/
def containsFinalizer (i : InstanceState) : Bool :=
  containsS finalizerName i.finalizers

/-- Library `controllerutil.AddFinalizer`: append when absent. -/
def addFinalizer (l : List String) : List String :=
  if containsS finalizerName l then l else l ++ [finalizerName]

/-- Library `controllerutil.RemoveFinalizer`: drop every occurrence. -/
def removeFinalizer (l : List String) : List String :=
  l.filter (fun f => f != finalizerName)

/-- Outcomes of the collaborator calls supplied to one run of `Reconcile`. -/
structure ReconcileEnv where
  deleteOk : Bool
  addOk : Bool
  updateOk : Bool
  statusOk : Bool

/-- Observable outcome of one `Reconcile` run: the branch taken, the
persisted finalizer list, whether the add path ran, returned error. -/
structure ReconcileOut where
  branch : RBranch
  finalizers : List String
  ranAddPath : Bool
  err : Bool
deriving DecidableEq

/-- The dispatch and finalizer bookkeeping of `Reconcile`
(lines 114-280): Deleting when a deletion timestamp is set (114-180),
Creating when generation is 1 and the finalizer is absent (181-243),
Updating otherwise (244-277; runs the add path, never touches the
finalizer). -/
def reconcile (inst : InstanceState) (env : ReconcileEnv) : ReconcileOut :=
  if inst.deletionRequested then
    if !env.deleteOk then ⟨RBranch.deleting, inst.finalizers, false, true⟩
    else if containsFinalizer inst then
      if env.updateOk then
        ⟨RBranch.deleting, removeFinalizer inst.finalizers, false, false⟩
      else ⟨RBranch.deleting, inst.finalizers, false, true⟩
    else ⟨RBranch.deleting, inst.finalizers, false, false⟩
  else if inst.generation = 1 ∧ containsFinalizer inst = false then
    if !env.statusOk then ⟨RBranch.creating, inst.finalizers, false, true⟩
    else if !env.addOk then ⟨RBranch.creating, inst.finalizers, true, true⟩
    else if !(containsFinalizer inst) then
      if env.updateOk then
        ⟨RBranch.creating, addFinalizer inst.finalizers, true, false⟩
      else ⟨RBranch.creating, inst.finalizers, true, true⟩
    else ⟨RBranch.creating, inst.finalizers, true, false⟩
  else
    ⟨RBranch.updating, inst.finalizers, true, !env.addOk⟩

theorem lastIdx_ge_neg_one (x : String) (l : List String) : -1 ≤ lastIdx x l := by
  induction l with
  | nil => simp [lastIdx]
  | cons a as ih =>
    rw [lastIdx_cons]
    by_cases h : lastIdx x as ≥ 0
    · rw [if_pos h]; omega
    · rw [if_neg h]
      by_cases ha : a = x
      · rw [if_pos ha]; omega
      · rw [if_neg ha]

/-! ## Claims -/

/-- C6: upserting the block for key `a@ns` with fragment `a: b\n` into a
document holding the `{}` placeholder yields exactly the header preamble
followed by the marker-wrapped fragment. -/
theorem claim_C6_placeholder_upsert :
    upsertBlock "{}" "a@ns" "a: b\n" =
      some "kind: CustomResourceStateMetrics\nspec:\n  resources:\n# BEGIN CustomResourceStateMetrics a@ns\na: b\n# END CustomResourceStateMetrics a@ns\n" := by
  decide

/-- C10: whenever the locator reports found, the returned end index is an
end-marker line position with some begin-marker line strictly before it;
the returned begin index is always the position of the last begin-marker
line of the whole input (`lastIdx`), so a begin marker occurring after
the last end marker forces beginIndex > endIndex. -/
theorem claim_C10_last_begin_wins (k : String) (lines : List String) :
    ((findBlock k lines).1 = true →
      lines[((findBlock k lines).2.2).toNat]? = some (endMarker k) ∧
      ∃ i : Nat, (i : Int) < (findBlock k lines).2.2 ∧ lines[i]? = some (beginMarker k))
    ∧ (findBlock k lines).2.1 = lastIdx (beginMarker k) lines
    ∧ (beginMarker k ∈ lines →
        lines[((findBlock k lines).2.1).toNat]? = some (beginMarker k) ∧
        ∀ m : Nat, (findBlock k lines).2.1 < (m : Int) → lines[m]? ≠ some (beginMarker k))
    ∧ ((findBlock k lines).1 = true →
        ∀ m : Nat, (findBlock k lines).2.2 < (m : Int) →
          lines[m]? = some (beginMarker k) →
          (findBlock k lines).2.1 > (findBlock k lines).2.2) := by
  rw [findBlock_char]
  dsimp only
  refine ⟨?_, rfl, ?_, ?_⟩
  · intro hf
    rw [if_pos hf]
    rcases (hasPair_iff _ _ _).mp hf with ⟨i, j, hij, hi, hj⟩
    have hjle := le_lastIdx_of_getElem _ _ _ hj
    have hmem : endMarker k ∈ lines := List.mem_iff_getElem?.mpr ⟨j, hj⟩
    refine ⟨lastIdx_getElem _ _ hmem, ⟨i, by omega, hi⟩⟩
  · intro hmem
    exact ⟨lastIdx_getElem _ _ hmem,
      fun m hm hc => by
        have := le_lastIdx_of_getElem _ _ _ hc
        omega⟩
  · intro hf m hm hc
    rw [if_pos hf] at hm
    have := le_lastIdx_of_getElem _ _ _ hc
    omega

theorem claim_C10_witness :
    (findBlock "a@ns" [beginMarker "a@ns", endMarker "a@ns", "x: y", beginMarker "a@ns"]).1 = true ∧
    (findBlock "a@ns" [beginMarker "a@ns", endMarker "a@ns", "x: y", beginMarker "a@ns"]).2.1 >
      (findBlock "a@ns" [beginMarker "a@ns", endMarker "a@ns", "x: y", beginMarker "a@ns"]).2.2 := by
  refine ⟨by decide, ?_⟩
  exact (claim_C10_last_begin_wins "a@ns"
    [beginMarker "a@ns", endMarker "a@ns", "x: y", beginMarker "a@ns"]).2.2.2
    (by decide) 3 (by decide) (by decide)

/-- C3 as stated is false: a begin marker with no matching end returns
`(false, beginIdx, -1)`, not `(false, -1, -1)`. -/
theorem claim_C3_counterexample :
    findBlock "a@ns" [beginMarker "a@ns"] = (false, 0, -1) ∧
      ((false, 0, -1) : Bool × Int × Int) ≠ ((false, -1, -1) : Bool × Int × Int) := by
  decide

/-- C3 amended: with exactly one begin and one end marker, begin first,
the locator returns `(true, beginIdx, endIdx)` at the marker positions
with beginIdx ≤ endIdx; when no begin/end pair exists at all the locator
reports found = false with endIndex -1, and beginIndex is -1 exactly
when no begin marker occurs (a lone begin yields `(false, beginIdx, -1)`). -/
theorem claim_C3_locate (k : String) (xs ys zs lines : List String)
    (hx1 : beginMarker k ∉ xs) (hy1 : beginMarker k ∉ ys) (hz1 : beginMarker k ∉ zs)
    (hx2 : endMarker k ∉ xs) (hy2 : endMarker k ∉ ys) (hz2 : endMarker k ∉ zs) :
    (findBlock k (xs ++ beginMarker k :: (ys ++ endMarker k :: zs)) =
        (true, (xs.length : Int), (xs.length : Int) + 1 + ys.length) ∧
      (xs.length : Int) ≤ (xs.length : Int) + 1 + ys.length)
    ∧ (hasPair (beginMarker k) (endMarker k) lines = false →
        (findBlock k lines).1 = false ∧ (findBlock k lines).2.2 = -1 ∧
          ((findBlock k lines).2.1 = -1 ↔ beginMarker k ∉ lines))
    ∧ (hasPair (beginMarker k) (endMarker k) lines = false ↔
        ¬ ∃ i j : Nat, i < j ∧ lines[i]? = some (beginMarker k) ∧
          lines[j]? = some (endMarker k)) := by
  refine ⟨⟨findBlock_decomp k xs ys zs hy1 hz1 hz2, by omega⟩, ?_, ?_⟩
  · intro hnp
    rw [findBlock_char]
    dsimp only
    rw [hnp]
    refine ⟨rfl, by simp, ?_⟩
    have h1 := lastIdx_ge_neg_one (beginMarker k) lines
    have h2 := lastIdx_nonneg_iff (beginMarker k) lines
    constructor
    · intro hc hm
      rw [← h2] at hm
      omega
    · intro hm
      rw [← h2] at hm
      omega
  · rw [← hasPair_iff]
    simp

theorem claim_C3_witness :
    findBlock "a@ns" (["x: y"] ++ beginMarker "a@ns" :: (["a: b"] ++ endMarker "a@ns" :: [])) =
        (true, 1, 3) ∧
      (findBlock "a@ns" ["x: y", "z: w"]).1 = false ∧
      (findBlock "a@ns" ["x: y", "z: w"]).2.1 = -1 := by
  have h := claim_C3_locate "a@ns" ["x: y"] ["a: b"] [] ["x: y", "z: w"]
    (by decide) (by decide) (by decide) (by decide) (by decide) (by decide)
  have h2 := h.2.1 (by decide)
  exact ⟨by simpa using h.1.1, h2.1, h2.2.2.mpr (by decide)⟩

/-- C4 as stated is false: in the non-strip branch the result is only
guaranteed to end in *at least* one newline; empty lines at the end of
the range yield several (here `join ["a","","","x"] 0 2 = "a\n\n"`,
which still ends in a newline after one newline is removed). -/
theorem claim_C4_counterexample :
    joinLines ["a", "", "", "x"] 0 2 = some "a\n\n" ∧
      goEndsWithNl (goTrimSuffixNl "a\n\n") = true := by
  decide

/-- C4 amended: join clamps a negative start to 0 and treats end = -1 or
end beyond the last index as "through end of lines"; when the effective
end is the last line index the result has its trailing newlines stripped
(it does not end in a newline); otherwise the result ends with at least
one newline (one is appended if absent, and trailing empty lines in the
range may contribute further newlines). -/
theorem claim_C4_joinLines (lines : List String) (hne : lines ≠ []) (s e : Int) :
    (joinLines lines s e = joinLines lines (max s 0) e)
    ∧ ((e = -1 ∨ e > (lines.length : Int) - 1) →
        joinLines lines s e = joinLines lines s ((lines.length : Int) - 1))
    ∧ (∀ r, joinLines lines s ((lines.length : Int) - 1) = some r →
        goEndsWithNl r = false)
    ∧ (0 ≤ e → e < (lines.length : Int) - 1 → ∀ r, joinLines lines s e = some r →
        goEndsWithNl r = true) := by
  have hlen : 1 ≤ lines.length := List.length_pos.mpr hne
  refine ⟨?_, ?_, ?_, ?_⟩
  · unfold joinLines
    have hstart : (if s < 0 then (0 : Int) else s) =
        (if max s 0 < 0 then (0 : Int) else max s 0) := by
      rcases le_or_lt 0 s with h | h
      · rw [if_neg (by omega), if_neg (by omega)]
        omega
      · rw [if_pos h, if_neg (by omega)]
        omega
    simp only [hstart]
  · intro he
    have h1 : e ≠ (lines.length : Int) - 1 := by
      rcases he with h | h
      · omega
      · omega
    unfold joinLines
    dsimp only
    rw [if_neg h1, if_pos he]
    rw [if_neg h1, if_pos he]
    simp only [eq_self_iff_true, if_true]
  · intro r h
    unfold joinLines at h
    dsimp only at h
    rw [if_pos rfl, if_pos rfl] at h
    by_cases hg : (if s < 0 then (0 : Int) else s) > ((lines.length : Int) - 1) + 1
    · rw [if_pos hg] at h
      exact absurd h (by simp)
    · rw [if_neg hg] at h
      simp only [if_true, Option.some.injEq] at h
      rw [← h]
      exact goEndsWithNl_goTrimRightNl _
  · intro he0 he1 r h
    unfold joinLines at h
    dsimp only at h
    have h1 : e ≠ (lines.length : Int) - 1 := by omega
    have h2 : ¬(e = -1 ∨ e > (lines.length : Int) - 1) := by
      push_neg
      omega
    rw [if_neg h1, if_neg h2] at h
    rw [if_neg h1, if_neg h2] at h
    by_cases hg : (if s < 0 then (0 : Int) else s) > e + 1
    · rw [if_pos hg] at h
      exact absurd h (by simp)
    · rw [if_neg hg] at h
      simp only [Bool.false_eq_true, if_false, Option.some.injEq] at h
      by_cases hnl : goEndsWithNl
          (goJoin (goSlice lines (if s < 0 then 0 else s) (e + 1))) = true
      · rw [if_pos hnl] at h
        rw [← h]
        exact hnl
      · rw [if_neg hnl] at h
        rw [← h]
        exact goEndsWithNl_append_nl _

theorem claim_C4_witness :
    joinLines ["0", "1", "2", "3", "4", "5", "6", "7", "8", "9"] (-100) 3 =
        joinLines ["0", "1", "2", "3", "4", "5", "6", "7", "8", "9"] (max (-100) 0) 3 ∧
      joinLines ["0", "1", "2", "3", "4", "5", "6", "7", "8", "9"] 7 1000 =
        joinLines ["0", "1", "2", "3", "4", "5", "6", "7", "8", "9"]
          7 (((["0", "1", "2", "3", "4", "5", "6", "7", "8", "9"] : List String).length : Int) - 1) ∧
      goEndsWithNl "7\n8\n9" = false ∧ goEndsWithNl "0\n1\n2\n3\n" = true := by
  have h1 := claim_C4_joinLines ["0", "1", "2", "3", "4", "5", "6", "7", "8", "9"]
    (by simp) (-100) 3
  have h2 := claim_C4_joinLines ["0", "1", "2", "3", "4", "5", "6", "7", "8", "9"]
    (by simp) 7 1000
  refine ⟨h1.1, h2.2.1 (Or.inr (by norm_num)), ?_, ?_⟩
  · exact h2.2.2.1 "7\n8\n9" (by decide)
  · exact h1.2.2.2 (by norm_num) (by norm_num) "0\n1\n2\n3\n" (by decide)

/-- C5: the encoder post-processing returns a newline-free serialization
unmodified, and otherwise removes exactly the first line together with
its newline; the (spec-modelled) single-line serialization of the empty
resource list is returned unmodified. -/
theorem claim_C5_decodeData (s : String) :
    ('\n' ∉ s.data → decodeDataPost s = s)
    ∧ ('\n' ∈ s.data →
        String.mk (s.data.takeWhile (· ≠ '\n')) ++ "\n" ++ decodeDataPost s = s ∧
          '\n' ∉ s.data.takeWhile (· ≠ '\n'))
    ∧ decodeDataPost emptyResourcesYaml = emptyResourcesYaml := by
  refine ⟨?_, ?_, by decide⟩
  · intro h
    unfold decodeDataPost
    have hdrop : s.data.dropWhile (fun c => c ≠ '\n') = [] := by
      rw [List.dropWhile_eq_nil_iff]
      intro x hx
      simp only [ne_eq, decide_eq_true_eq]
      exact fun hc => h (hc ▸ hx)
    rw [hdrop]
  · intro h
    unfold decodeDataPost
    cases hd : s.data.dropWhile (fun c => c ≠ '\n') with
    | nil =>
      rw [List.dropWhile_eq_nil_iff] at hd
      have := hd '\n' h
      simp at this
    | cons c rest =>
      have hc := dropWhile_head_false _ _ _ _ hd
      have hceq : c = '\n' := by simpa using hc
      constructor
      · apply String.ext
        rw [string_data_append, string_data_append, nl_data]
        have := List.takeWhile_append_dropWhile (p := fun c => c ≠ '\n') (l := s.data)
        rw [hd, hceq] at this
        simpa using this
      · intro hmem
        have := List.mem_takeWhile_imp hmem
        simp at this

theorem claim_C5_witness :
    decodeDataPost "resources: []" = "resources: []" ∧
      String.mk (("resources:\n- a: b\n").data.takeWhile (· ≠ '\n')) ++ "\n" ++
        decodeDataPost "resources:\n- a: b\n" = "resources:\n- a: b\n" := by
  refine ⟨(claim_C5_decodeData "resources: []").1 (by decide), ?_⟩
  exact ((claim_C5_decodeData "resources:\n- a: b\n").2.1 (by decide)).1

/-- C7: when the fetched document contains no block for the instance key,
the delete path performs no document write and (given the instance-status
persistence succeeds) returns without error, reporting the block as not
found rather than failing. -/
theorem claim_C7_delete_absent (instanceKey data : String) (env : DeleteEnv)
    (hfetch : env.fetch = Except.ok data)
    (hnotfound : (findBlock instanceKey (goSplit data)).1 = false)
    (hstatus : env.statusOk = true) :
    deleteCRSM instanceKey env =
      { err := false, docWrite := none, blockFound := false } := by
  unfold deleteCRSM
  rw [hfetch]
  have hrm : removeBlock data instanceKey = some (false, data) := by
    unfold removeBlock
    rw [if_neg (by rw [hnotfound]; simp)]
  dsimp only
  rw [hrm, hstatus]
  rfl

theorem claim_C7_witness :
    deleteCRSM "a@ns" ⟨Except.ok "x: y\n", true, true⟩ =
      { err := false, docWrite := none, blockFound := false } :=
  claim_C7_delete_absent "a@ns" "x: y\n" ⟨Except.ok "x: y\n", true, true⟩ rfl
    (by decide) rfl

/-- C8: evaluation of the delete path at the failing input: a ConfigMap
fetch that fails for a reason other than not-found is swallowed - the
path takes its "ConfigMap does not exist" branch and returns no error,
instead of surfacing a retryable error as the claim requires. -/
theorem claim_C8_fetch_error_swallowed :
    deleteCRSM "a@ns" ⟨Except.error CMGetError.other, true, true⟩ =
      { err := false, docWrite := none, blockFound := false } := rfl

/-- C9: a live instance that is not in the Creating state takes the
Updating transition, which runs the add path and leaves the finalizer
set untouched. -/
theorem claim_C9_updating_frame (inst : InstanceState) (env : ReconcileEnv)
    (hlive : inst.deletionRequested = false)
    (hnotcreating : inst.generation ≠ 1 ∨ containsFinalizer inst = true) :
    (reconcile inst env).branch = RBranch.updating ∧
      (reconcile inst env).finalizers = inst.finalizers ∧
      (reconcile inst env).ranAddPath = true := by
  unfold reconcile
  rw [hlive]
  have hc : ¬(inst.generation = 1 ∧ containsFinalizer inst = false) := by
    rcases hnotcreating with h | h
    · exact fun hcc => h hcc.1
    · intro hcc
      rw [h] at hcc
      exact absurd hcc.2 (by simp)
  rw [if_neg (by simp), if_neg hc]
  exact ⟨rfl, rfl, rfl⟩

theorem claim_C9_witness :
    (reconcile ⟨false, 2, [finalizerName]⟩ ⟨true, true, true, true⟩).branch =
        RBranch.updating ∧
      (reconcile ⟨false, 2, [finalizerName]⟩ ⟨true, true, true, true⟩).finalizers =
        [finalizerName] ∧
      (reconcile ⟨false, 2, [finalizerName]⟩ ⟨true, true, true, true⟩).ranAddPath = true :=
  claim_C9_updating_frame ⟨false, 2, [finalizerName]⟩ ⟨true, true, true, true⟩ rfl
    (Or.inl (by decide))

/-! ## Support for the idempotence and round-trip claims -/

theorem string_append_assoc (a b c : String) : (a ++ b) ++ c = a ++ (b ++ c) := by
  apply String.ext
  simp only [string_data_append, List.append_assoc]

theorem string_append_empty (s : String) : s ++ "" = s := by
  apply String.ext
  simp [string_data_append]

theorem string_empty_append (s : String) : "" ++ s = s := by
  apply String.ext
  simp [string_data_append]

theorem string_data_ne_nil (s : String) (h : s ≠ "") : s.data ≠ [] := by
  intro hc
  apply h
  apply String.ext
  simp [hc]

theorem beginMarker_no_nl (k : String) (hk : '\n' ∉ k.data) :
    '\n' ∉ (beginMarker k).data := by
  unfold beginMarker
  rw [string_data_append]
  intro hc
  rcases List.mem_append.mp hc with h | h
  · exact absurd h (by decide)
  · exact hk h

theorem endMarker_no_nl (k : String) (hk : '\n' ∉ k.data) :
    '\n' ∉ (endMarker k).data := by
  unfold endMarker
  rw [string_data_append]
  intro hc
  rcases List.mem_append.mp hc with h | h
  · exact absurd h (by decide)
  · exact hk h

theorem goSplit_empty : goSplit "" = [""] := rfl

theorem goEndsWithNl_of_no_nl (x : String) (hx : x ≠ "") (hnl : '\n' ∉ x.data) :
    goEndsWithNl x = false := by
  unfold goEndsWithNl
  have hne := string_data_ne_nil x hx
  rw [List.getLast?_eq_getLast x.data hne]
  simp only [decide_eq_false_iff_not, ne_eq, Option.some.injEq]
  intro hc
  exact hnl (hc ▸ List.getLast_mem hne)

theorem getLast?_append_right {α : Type} (l₁ l₂ : List α) (h : l₂ ≠ []) :
    (l₁ ++ l₂).getLast? = l₂.getLast? := by
  induction l₁ with
  | nil => rfl
  | cons a as ih =>
    rw [List.cons_append]
    cases h2 : as ++ l₂ with
    | nil =>
      rcases List.append_eq_nil.mp h2 with ⟨_, hc⟩
      exact absurd hc h
    | cons b bs =>
      rw [List.getLast?_cons_cons, ← h2, ih]

theorem goEndsWithNl_append_right (a x : String) (hx : x ≠ "") :
    goEndsWithNl (a ++ x) = goEndsWithNl x := by
  unfold goEndsWithNl
  rw [string_data_append, getLast?_append_right a.data x.data (string_data_ne_nil x hx)]

/-- Every line of a joined-then-newline-trimmed list of newline-free
parts is either empty or one of the parts. -/
theorem mem_goSplit_trim_goJoin (sfx : List String)
    (hnl : ∀ p ∈ sfx, '\n' ∉ p.data) :
    ∀ q ∈ goSplit (goTrimRightNl (goJoin sfx)), q = "" ∨ q ∈ sfx := by
  induction sfx using List.reverseRecOn with
  | nil =>
    intro q hq
    left
    have h0 : goJoin ([] : List String) = "" := rfl
    rw [h0, goTrimRightNl_empty] at hq
    simpa [goSplit_empty] using hq
  | append_singleton rest x ih =>
    by_cases hx : x = ""
    · subst hx
      rcases eq_or_ne rest [] with hrest | hrest
      · subst hrest
        intro q hq
        left
        have h1 : goJoin (([] : List String) ++ [""]) = "" := rfl
        rw [h1, goTrimRightNl_empty] at hq
        simpa [goSplit_empty] using hq
      · intro q hq
        rw [goJoin_append rest [""] hrest (by simp)] at hq
        have h2 : goJoin rest ++ "\n" ++ goJoin [""] = goJoin rest ++ "\n" := by
          rw [goJoin_single, string_append_empty]
        rw [h2, goTrimRightNl_append_nl] at hq
        rcases ih (fun p hp => hnl p (List.mem_append_left _ hp)) q hq with h | h
        · exact Or.inl h
        · exact Or.inr (List.mem_append_left _ h)
    · intro q hq
      have hxnl : '\n' ∉ x.data := hnl x (List.mem_append_right _ (by simp))
      have hne2 : rest ++ [x] ≠ [] := by simp
      have hend : goEndsWithNl (goJoin (rest ++ [x])) = false := by
        rcases eq_or_ne rest [] with hrest | hrest
        · subst hrest
          have h0 : goJoin (([] : List String) ++ [x]) = x := rfl
          rw [h0]
          exact goEndsWithNl_of_no_nl x hx hxnl
        · rw [goJoin_append rest [x] hrest (by simp), goJoin_single, string_append_assoc]
          have hnx : ("\n" ++ x : String) ≠ "" := by
            intro hc
            have := congrArg (fun s => s.data.length) hc
            simp [string_data_append] at this
          rw [goEndsWithNl_append_right _ _ hnx, goEndsWithNl_append_right "\n" x hx]
          exact goEndsWithNl_of_no_nl x hx hxnl
      rw [goTrimRightNl_of_not_nl _ hend] at hq
      rw [goSplit_goJoin (rest ++ [x]) hne2 hnl] at hq
      exact Or.inr hq

/-- Splitting a freshly rendered block (plus arbitrary following text):
the begin marker, the fragment lines, the end marker, then the lines of
the remainder. -/
theorem goSplit_cmData_append (k f S : String) (hk : '\n' ∉ k.data)
    (hf : f = "" ∨ goEndsWithNl f = true) :
    ∃ inner : List String,
      goSplit (cmData k f ++ S) =
        beginMarker k :: (inner ++ endMarker k :: goSplit S) ∧
      (∀ q ∈ inner, q ∈ goSplit f) ∧
      goJoin (beginMarker k :: (inner ++ [endMarker k])) =
        goTrimSuffixNl (cmData k f) := by
  have hBnl := beginMarker_no_nl k hk
  have hEnl := endMarker_no_nl k hk
  have htrim : goTrimSuffixNl (cmData k f) =
      ((beginMarker k ++ "\n") ++ f) ++ endMarker k := by
    unfold cmData
    exact goTrimSuffixNl_append_nl _
  rcases hf with hf | hf
  · refine ⟨[], ?_, by simp, ?_⟩
    · have hw : cmData k f ++ S =
          (beginMarker k ++ "\n") ++ ((endMarker k ++ "\n") ++ S) := by
        apply String.ext
        simp [cmData, hf, string_data_append, List.append_assoc]
      rw [hw]
      have h1 : (beginMarker k ++ "\n") ++ ((endMarker k ++ "\n") ++ S) =
          beginMarker k ++ "\n" ++ ((endMarker k ++ "\n") ++ S) := rfl
      rw [h1, goSplit_append, goSplit_single _ hBnl]
      have h2 : (endMarker k ++ "\n") ++ S = endMarker k ++ "\n" ++ S := rfl
      rw [h2, goSplit_append, goSplit_single _ hEnl]
      rfl
    · rw [htrim, hf]
      have h3 : goJoin (beginMarker k :: ([] ++ [endMarker k])) =
          goJoin [beginMarker k, endMarker k] := rfl
      rw [h3]
      have h4 : goJoin [beginMarker k, endMarker k] =
          goJoin ([beginMarker k] ++ [endMarker k]) := rfl
      rw [h4, goJoin_append _ _ (by simp) (by simp), goJoin_single, goJoin_single]
      apply String.ext
      simp [string_data_append, List.append_assoc]
  · obtain ⟨fc, hfc⟩ : ∃ fc : String, f = fc ++ "\n" := ⟨_, eq_dropLast_append_nl f hf⟩
    rw [hfc]
    have htrim2 : goTrimSuffixNl (cmData k (fc ++ "\n")) =
        ((beginMarker k ++ "\n") ++ (fc ++ "\n")) ++ endMarker k := by
      unfold cmData
      exact goTrimSuffixNl_append_nl _
    have hfcs : goSplit (fc ++ "\n") = goSplit fc ++ [""] := by
      have h5 : fc ++ "\n" = fc ++ "\n" ++ "" := (string_append_empty _).symm
      rw [h5, goSplit_append, goSplit_empty]
    refine ⟨goSplit fc, ?_, ?_, ?_⟩
    · have hw : cmData k (fc ++ "\n") ++ S =
          beginMarker k ++ "\n" ++ (fc ++ "\n" ++ (endMarker k ++ "\n" ++ S)) := by
        apply String.ext
        simp [cmData, string_data_append, List.append_assoc]
      rw [hw, goSplit_append, goSplit_single _ hBnl, goSplit_append, goSplit_append,
        goSplit_single _ hEnl]
      simp
    · intro q hq
      rw [hfcs]
      exact List.mem_append_left _ hq
    · have h6 : goJoin (beginMarker k :: (goSplit fc ++ [endMarker k])) =
          goJoin ([beginMarker k] ++ (goSplit fc ++ [endMarker k])) := rfl
      rw [h6, goJoin_append _ _ (by simp) (by simp [goSplit_ne_nil]), goJoin_single]
      rw [goJoin_append _ _ (goSplit_ne_nil fc) (by simp), goJoin_single, goJoin_goSplit]
      rw [htrim2]
      apply String.ext
      simp [string_data_append, List.append_assoc]

/-- Self-recognition: upserting into a document that already carries the
freshly rendered block (between a prefix that ends at a line boundary
and a remainder whose lines hold no markers for the key) is a no-op. -/
theorem upsertBlock_self (k f P S : String)
    (hk : '\n' ∉ k.data)
    (hf : f = "" ∨ goEndsWithNl f = true)
    (hfB : beginMarker k ∉ goSplit f)
    (hP : P = "" ∨ goEndsWithNl P = true)
    (hSb : beginMarker k ∉ goSplit S)
    (hSe : endMarker k ∉ goSplit S) :
    upsertBlock (P ++ cmData k f ++ S) k f = some (P ++ cmData k f ++ S) := by
  obtain ⟨inner, hsplit, hmemf, hjoin⟩ := goSplit_cmData_append k f S hk hf
  obtain ⟨lsP, hlines⟩ : ∃ lsP : List String,
      goSplit (P ++ cmData k f ++ S) =
        lsP ++ beginMarker k :: (inner ++ endMarker k :: goSplit S) := by
    rcases hP with hP | hP
    · refine ⟨[], ?_⟩
      rw [hP, string_empty_append, hsplit]
      rfl
    · obtain ⟨Pc, hPc⟩ : ∃ Pc : String, P = Pc ++ "\n" :=
        ⟨_, eq_dropLast_append_nl P hP⟩
      refine ⟨goSplit Pc, ?_⟩
      have hw : P ++ cmData k f ++ S = Pc ++ "\n" ++ (cmData k f ++ S) := by
        rw [hPc]
        apply String.ext
        simp [string_data_append, List.append_assoc]
      rw [hw, goSplit_append, hsplit]
  have hBin : beginMarker k ∉ inner := fun hc => hfB (hmemf _ hc)
  have hfb : findBlock k (goSplit (P ++ cmData k f ++ S)) =
      (true, (lsP.length : Int), (lsP.length : Int) + 1 + inner.length) := by
    rw [hlines]
    exact findBlock_decomp k lsP inner (goSplit S) hBin hSb hSe
  have hlen : (goSplit (P ++ cmData k f ++ S)).length =
      lsP.length + inner.length + (goSplit S).length + 2 := by
    rw [hlines]
    simp [List.length_append, List.length_cons]
    omega
  have hSlen : 1 ≤ (goSplit S).length := List.length_pos.mpr (goSplit_ne_nil S)
  have hslice : goSlice (goSplit (P ++ cmData k f ++ S)) (lsP.length : Int)
      ((lsP.length : Int) + 1 + inner.length + 1) =
        beginMarker k :: (inner ++ [endMarker k]) := by
    unfold goSlice
    have h1 : ((lsP.length : Int)).toNat = lsP.length := Int.toNat_natCast _
    have h2 : (((lsP.length : Int) + 1 + inner.length + 1) - lsP.length).toNat =
        inner.length + 2 := by omega
    rw [h1, h2, hlines, List.drop_left]
    have h3 : inner.length + 2 = (inner.length + 1) + 1 := rfl
    rw [h3, List.take_succ_cons]
    have h4 : inner.length + 1 = inner.length + 1 := rfl
    have h5 : (inner ++ endMarker k :: goSplit S).take (inner.length + 1) =
        inner ++ (endMarker k :: goSplit S).take 1 := List.take_append 1
    rw [h5]
    simp
  unfold upsertBlock
  dsimp only
  rw [hfb]
  dsimp only
  rw [if_pos rfl]
  have hguard : ¬((lsP.length : Int) < 0 ∨
      (lsP.length : Int) > (lsP.length : Int) + 1 + inner.length + 1 ∨
      (lsP.length : Int) + 1 + inner.length + 1 >
        ((goSplit (P ++ cmData k f ++ S)).length : Int)) := by
    push_neg
    refine ⟨by positivity, by omega, ?_⟩
    rw [hlen]
    push_cast
    omega
  rw [if_neg hguard, hslice, if_pos hjoin.symm]

/-- C1 as stated is false: appending to a document that does not end in
a newline glues the begin marker onto the last line, so the second
upsert does not recognise the block and appends again. -/
theorem claim_C1_counterexample :
    (upsertBlock "abc" "a@ns" "a: b\n").bind (fun d => upsertBlock d "a@ns" "a: b\n") ≠
      upsertBlock "abc" "a@ns" "a: b\n" := by
  decide

/-- C1 amended: the upsert is idempotent for every document that is
empty, newline-terminated, or the `{}` placeholder, provided the key has
no newline, the fragment is empty or newline-terminated with no line
equal to the begin marker, and no begin marker for the key occurs after
the last end marker in the document (whenever the locator finds a block,
its begin index does not exceed its end index). -/
theorem claim_C1_upsert_idempotent (doc k f : String)
    (hk : '\n' ∉ k.data)
    (hdoc : doc = "" ∨ goEndsWithNl doc = true ∨ goTrimSpace doc = "{}")
    (hf : f = "" ∨ goEndsWithNl f = true)
    (hfB : beginMarker k ∉ goSplit f)
    (hwf : (findBlock k (goSplit doc)).1 = true →
      (findBlock k (goSplit doc)).2.1 ≤ (findBlock k (goSplit doc)).2.2) :
    (upsertBlock doc k f).bind (fun d => upsertBlock d k f) = upsertBlock doc k f := by
  have hSempty_b : beginMarker k ∉ goSplit "" := by
    rw [goSplit_empty]
    simp [beginMarker_ne_empty k]
  have hSempty_e : endMarker k ∉ goSplit "" := by
    rw [goSplit_empty]
    simp [endMarker_ne_empty k]
  have hchar := findBlock_char k (goSplit doc)
  cases hfound : hasPair (beginMarker k) (endMarker k) (goSplit doc) with
  | false =>
    have hfb : findBlock k (goSplit doc) =
        (false, lastIdx (beginMarker k) (goSplit doc), -1) := by
      rw [hchar, hfound]
      simp
    have hup : upsertBlock doc k f =
        some ((if goTrimSpace doc = "{}" then cmDataHeader else doc) ++ cmData k f) := by
      unfold upsertBlock
      dsimp only
      rw [hfb]
      dsimp only
      rw [if_neg (by simp)]
    set doc1 := if goTrimSpace doc = "{}" then cmDataHeader else doc with hdoc1
    have hP : doc1 = "" ∨ goEndsWithNl doc1 = true := by
      by_cases htr : goTrimSpace doc = "{}"
      · rw [hdoc1, if_pos htr]
        exact Or.inr (by decide)
      · rw [hdoc1, if_neg htr]
        rcases hdoc with h | h | h
        · exact Or.inl h
        · exact Or.inr h
        · exact absurd h htr
    have hself := upsertBlock_self k f doc1 "" hk hf hfB hP hSempty_b hSempty_e
    rw [string_append_empty] at hself
    rw [hup]
    exact hself
  | true =>
    have hfb : findBlock k (goSplit doc) =
        (true, lastIdx (beginMarker k) (goSplit doc),
          lastIdx (endMarker k) (goSplit doc)) := by
      rw [hchar, hfound]
      simp
    rw [hfb] at hwf
    have hble := hwf rfl
    dsimp only at hble
    set lines := goSplit doc with hlinesdef
    set b := lastIdx (beginMarker k) lines with hbdef
    set e := lastIdx (endMarker k) lines with hedef
    have hbmem : beginMarker k ∈ lines :=
      (containsS_iff _ _).mp (hasPair_contains_bm _ _ _ hfound)
    have hb0 : 0 ≤ b := (lastIdx_nonneg_iff _ _).mpr hbmem
    have he0 : 0 ≤ e := le_trans hb0 hble
    have helt : e < (lines.length : Int) := lastIdx_lt_length _ _
    have hblt : b < (lines.length : Int) := lastIdx_lt_length _ _
    have hguard : ¬(b < 0 ∨ b > e + 1 ∨ e + 1 > (lines.length : Int)) := by
      push_neg
      exact ⟨hb0, by omega, by omega⟩
    by_cases hid : goTrimSuffixNl (cmData k f) = goJoin (goSlice lines b (e + 1))
    · have hup : upsertBlock doc k f = some doc := by
        unfold upsertBlock
        dsimp only
        rw [hfb]
        dsimp only
        rw [if_pos rfl, if_neg hguard, if_pos hid]
      rw [hup]
      exact hup
    · obtain ⟨P, hPeq, hPp⟩ : ∃ P, (if b > 0 then joinLines lines 0 (b - 1)
          else some "") = some P ∧ (P = "" ∨ goEndsWithNl P = true) := by
        by_cases hbpos : b > 0
        · rw [if_pos hbpos]
          have hbn : ((b.toNat : Nat) : Int) = b := Int.toNat_of_nonneg hb0
          have hfr := joinLines_front lines b.toNat (by omega) (by omega) (by omega)
          rw [hbn] at hfr
          refine ⟨_, hfr, ?_⟩
          by_cases hnl2 : goEndsWithNl (goJoin (lines.take b.toNat)) = true
          · rw [if_pos hnl2]
            exact Or.inr hnl2
          · rw [if_neg hnl2]
            exact Or.inr (goEndsWithNl_append_nl _)
        · exact ⟨"", by rw [if_neg hbpos], Or.inl rfl⟩
      obtain ⟨S, hSeq, hSb, hSe⟩ : ∃ S, (if e < (lines.length : Int) - 1 then
          joinLines lines (e + 1) (-1) else some "") = some S ∧
          beginMarker k ∉ goSplit S ∧ endMarker k ∉ goSplit S := by
        by_cases helast : e < (lines.length : Int) - 1
        · rw [if_pos helast]
          have hen : (((e + 1).toNat : Nat) : Int) = e + 1 :=
            Int.toNat_of_nonneg (by omega)
          have hbk := joinLines_back lines (e + 1).toNat
            (List.length_pos.mpr (goSplit_ne_nil doc)) (by omega)
          rw [hen] at hbk
          have hnl3 : ∀ p ∈ lines.drop (e + 1).toNat, '\n' ∉ p.data :=
            fun p hp => goSplit_no_nl doc p (List.mem_of_mem_drop hp)
          refine ⟨_, hbk, ?_, ?_⟩
          · intro hc
            rcases mem_goSplit_trim_goJoin _ hnl3 _ hc with h | h
            · exact beginMarker_ne_empty k h
            · exact not_mem_drop_of_lastIdx_lt _ _ _ (by omega) h
          · intro hc
            rcases mem_goSplit_trim_goJoin _ hnl3 _ hc with h | h
            · exact endMarker_ne_empty k h
            · exact not_mem_drop_of_lastIdx_lt _ _ _ (by omega) h
        · exact ⟨"", by rw [if_neg helast], hSempty_b, hSempty_e⟩
      have hup : upsertBlock doc k f = some (P ++ cmData k f ++ S) := by
        unfold upsertBlock
        dsimp only
        rw [hfb]
        dsimp only
        rw [if_pos rfl, if_neg hguard, if_neg hid, hPeq, hSeq]
        rfl
      have hself := upsertBlock_self k f P S hk hf hfB hPp hSb hSe
      rw [hup]
      exact hself

theorem drop_len_append {α : Type} (l₁ l₂ : List α) (n : Nat) :
    (l₁ ++ l₂).drop (l₁.length + n) = l₂.drop n := by
  induction l₁ with
  | nil => simp
  | cons a as ih =>
    rw [List.cons_append, List.length_cons]
    have h1 : as.length + 1 + n = (as.length + n) + 1 := by omega
    rw [h1, List.drop_succ_cons, ih]

/-- Removing the block right after the add path appended it restores the
prefix exactly, when the prefix ends in a single newline (or is empty). -/
theorem removeBlock_self (k f P : String)
    (hk : '\n' ∉ k.data)
    (hf : f = "" ∨ goEndsWithNl f = true)
    (hfB : beginMarker k ∉ goSplit f)
    (hP : P = "" ∨ ∃ Pc, P = Pc ++ "\n" ∧ goEndsWithNl Pc = false) :
    removeBlock (P ++ cmData k f) k = some (true, P) := by
  obtain ⟨inner, hsplit, hmemf, hjoin⟩ := goSplit_cmData_append k f "" hk hf
  rw [string_append_empty, goSplit_empty] at hsplit
  have hBin : beginMarker k ∉ inner := fun hc => hfB (hmemf _ hc)
  have htrb : beginMarker k ∉ [""] := by simp [beginMarker_ne_empty k]
  have htre : endMarker k ∉ [""] := by simp [endMarker_ne_empty k]
  rcases hP with hP | ⟨Pc, hPc, hPcnl⟩
  · subst hP
    rw [string_empty_append]
    have hlines : goSplit (cmData k f) =
        [] ++ beginMarker k :: (inner ++ endMarker k :: [""]) := by
      rw [hsplit]
      rfl
    have hfb : findBlock k (goSplit (cmData k f)) =
        (true, (0 : Int), (0 : Int) + 1 + inner.length) := by
      rw [hlines]
      have := findBlock_decomp k [] inner [""] hBin htrb htre
      simpa using this
    have hlen : (goSplit (cmData k f)).length = inner.length + 3 := by
      rw [hsplit]
      simp only [List.length_cons, List.length_append, List.length_nil]
    have hback : joinLines (goSplit (cmData k f)) ((0 : Int) + 1 + inner.length + 1) (-1) =
        some "" := by
      have hcast : ((inner.length + 2 : Nat) : Int) = (0 : Int) + 1 + inner.length + 1 := by
        push_cast
        ring
      have hbk := joinLines_back (goSplit (cmData k f)) (inner.length + 2)
        (by rw [hlen]; omega) (by rw [hlen]; push_cast; omega)
      rw [hcast] at hbk
      have hdrop : (goSplit (cmData k f)).drop (inner.length + 2) = [""] := by
        rw [hsplit]
        have h1 : inner.length + 2 = (inner.length + 1) + 1 := rfl
        rw [h1, List.drop_succ_cons]
        have h2 : inner.length + 1 = inner.length + 1 := rfl
        have h3 : (inner ++ endMarker k :: [""]).drop (inner.length + 1) =
            (endMarker k :: [""]).drop 1 := drop_len_append inner _ 1
        rw [h3]
        rfl
      rw [hdrop] at hbk
      have hj : goTrimRightNl (goJoin ([""] : List String)) = "" := rfl
      rw [hj] at hbk
      exact hbk
    unfold removeBlock
    dsimp only
    rw [hfb]
    dsimp only
    rw [if_pos rfl]
    rw [if_neg (by omega)]
    have hcond : (0 : Int) + 1 + inner.length < ((goSplit (cmData k f)).length : Int) - 1 := by
      rw [hlen]
      push_cast
      omega
    rw [if_pos hcond, hback]
    rfl
  · subst hPc
    have hw : (Pc ++ "\n") ++ cmData k f = Pc ++ "\n" ++ cmData k f := rfl
    have hlines : goSplit ((Pc ++ "\n") ++ cmData k f) =
        goSplit Pc ++ beginMarker k :: (inner ++ endMarker k :: [""]) := by
      rw [hw, goSplit_append, hsplit]
    have hp1 : 1 ≤ (goSplit Pc).length := List.length_pos.mpr (goSplit_ne_nil Pc)
    have hfb : findBlock k (goSplit ((Pc ++ "\n") ++ cmData k f)) =
        (true, ((goSplit Pc).length : Int),
          ((goSplit Pc).length : Int) + 1 + inner.length) := by
      rw [hlines]
      exact findBlock_decomp k (goSplit Pc) inner [""] hBin htrb htre
    have hlen : (goSplit ((Pc ++ "\n") ++ cmData k f)).length =
        (goSplit Pc).length + inner.length + 3 := by
      rw [hlines]
      simp only [List.length_cons, List.length_append, List.length_nil]
      omega
    have hfront : joinLines (goSplit ((Pc ++ "\n") ++ cmData k f)) 0
        (((goSplit Pc).length : Int) - 1) = some (Pc ++ "\n") := by
      have hfr := joinLines_front (goSplit ((Pc ++ "\n") ++ cmData k f))
        (goSplit Pc).length (by omega) (by rw [hlen]; push_cast; omega)
        (by rw [hlen]; push_cast; omega)
      have htake : (goSplit ((Pc ++ "\n") ++ cmData k f)).take (goSplit Pc).length =
          goSplit Pc := by
        rw [hlines, List.take_left]
      rw [htake, goJoin_goSplit] at hfr
      rw [if_neg (by simp [hPcnl])] at hfr
      exact hfr
    have hback : joinLines (goSplit ((Pc ++ "\n") ++ cmData k f))
        (((goSplit Pc).length : Int) + 1 + inner.length + 1) (-1) = some "" := by
      have hcast : (((goSplit Pc).length + inner.length + 2 : Nat) : Int) =
          ((goSplit Pc).length : Int) + 1 + inner.length + 1 := by
        push_cast
        ring
      have hbk := joinLines_back (goSplit ((Pc ++ "\n") ++ cmData k f))
        ((goSplit Pc).length + inner.length + 2)
        (by rw [hlen]; omega) (by rw [hlen]; push_cast; omega)
      rw [hcast] at hbk
      have hdrop : (goSplit ((Pc ++ "\n") ++ cmData k f)).drop
          ((goSplit Pc).length + inner.length + 2) = [""] := by
        rw [hlines]
        have h3 : (goSplit Pc ++ beginMarker k :: (inner ++ endMarker k :: [""])).drop
            ((goSplit Pc).length + (inner.length + 2)) =
            (beginMarker k :: (inner ++ endMarker k :: [""])).drop (inner.length + 2) :=
          drop_len_append _ _ _
        have h4 : (goSplit Pc).length + inner.length + 2 =
            (goSplit Pc).length + (inner.length + 2) := by omega
        rw [h4, h3]
        have h5 : inner.length + 2 = (inner.length + 1) + 1 := rfl
        rw [h5, List.drop_succ_cons]
        have h6 : (inner ++ endMarker k :: [""]).drop (inner.length + 1) =
            (endMarker k :: [""]).drop 1 := drop_len_append inner _ 1
        rw [h6]
        rfl
      rw [hdrop] at hbk
      have hj : goTrimRightNl (goJoin ([""] : List String)) = "" := rfl
      rw [hj] at hbk
      exact hbk
    unfold removeBlock
    dsimp only
    rw [hfb]
    dsimp only
    rw [if_pos rfl]
    rw [if_pos (by push_cast; omega), hfront]
    have hcond : ((goSplit Pc).length : Int) + 1 + inner.length <
        ((goSplit ((Pc ++ "\n") ++ cmData k f)).length : Int) - 1 := by
      rw [hlen]
      push_cast
      omega
    rw [if_pos hcond, hback]
    show some (true, (Pc ++ "\n") ++ "") = some (true, Pc ++ "\n")
    rw [string_append_empty]

theorem claim_C1_witness :
    (upsertBlock "x: y\n" "a@ns" "a: b\n").bind
        (fun d => upsertBlock d "a@ns" "a: b\n") =
      upsertBlock "x: y\n" "a@ns" "a: b\n" :=
  claim_C1_upsert_idempotent "x: y\n" "a@ns" "a: b\n" (by decide)
    (Or.inr (Or.inl (by decide))) (Or.inr (by decide)) (by decide) (by decide)

/-- C2 as stated is false: a document ending in a blank line loses that
blank line in the round trip (the joiner re-appends only one newline). -/
theorem claim_C2_counterexample :
    (upsertBlock "x\n\n" "a@ns" "a: b\n").bind
        (fun r => (removeBlock r "a@ns").map Prod.snd) = some "x\n" ∧
      ("x\n" : String) ≠ "x\n\n" ∧ goTrimSpace "x\n\n" ≠ "{}" := by
  decide

/-- C2 amended: when the document holds no block for the key and is
empty, the `{}` placeholder, or terminated by exactly one final newline,
and the fragment is empty or newline-terminated with no line equal to
the begin marker, removing the block right after upserting it restores
the document exactly - the `{}` placeholder having been normalised to
the header preamble by the insert. -/
theorem claim_C2_roundtrip (doc k f : String)
    (hk : '\n' ∉ k.data)
    (hf : f = "" ∨ goEndsWithNl f = true)
    (hfB : beginMarker k ∉ goSplit f)
    (hnf : (findBlock k (goSplit doc)).1 = false)
    (hdoc : doc = "" ∨ goTrimSpace doc = "{}" ∨
      ∃ d, doc = d ++ "\n" ∧ goEndsWithNl d = false) :
    (upsertBlock doc k f).bind (fun r => (removeBlock r k).map Prod.snd) =
      some (if goTrimSpace doc = "{}" then cmDataHeader else doc) := by
  have hup : upsertBlock doc k f =
      some ((if goTrimSpace doc = "{}" then cmDataHeader else doc) ++ cmData k f) := by
    unfold upsertBlock
    dsimp only
    rw [if_neg (by simp [hnf])]
  set doc1 := if goTrimSpace doc = "{}" then cmDataHeader else doc with hdoc1
  have hPshape : doc1 = "" ∨ ∃ Pc, doc1 = Pc ++ "\n" ∧ goEndsWithNl Pc = false := by
    by_cases htr : goTrimSpace doc = "{}"
    · right
      refine ⟨"kind: CustomResourceStateMetrics\nspec:\n  resources:", ?_, by decide⟩
      rw [hdoc1, if_pos htr]
      decide
    · rw [hdoc1, if_neg htr]
      rcases hdoc with h | h | h
      · exact Or.inl h
      · exact absurd h htr
      · exact Or.inr h
  have hrm := removeBlock_self k f doc1 hk hf hfB hPshape
  rw [hup]
  show (removeBlock (doc1 ++ cmData k f) k).map Prod.snd = some doc1
  rw [hrm]
  rfl

theorem claim_C2_witness :
    (upsertBlock "x: y\n" "a@ns" "a: b\n").bind
        (fun r => (removeBlock r "a@ns").map Prod.snd) =
      some (if goTrimSpace "x: y\n" = "{}" then cmDataHeader else "x: y\n") :=
  claim_C2_roundtrip "x: y\n" "a@ns" "a: b\n" (by decide) (Or.inr (by decide))
    (by decide) (by decide) (Or.inr (Or.inr ⟨"x: y", by decide, by decide⟩))
